import Mathlib

/-!
Verification of the concourse-github-pr-comment-resource codebase.

The Go sources are shallowly embedded: the `check` step (actions/check.go),
the source filter predicates and data model (actions/source.go), the `in`
step (actions/in.go), the `out` step's environment expansion (actions/out.go)
and the API client's comment deletion (api/github.go).  External library
calls (Go's regexp engine, the GitHub REST client, the filesystem) are
modelled as explicit parameters; everything the repository itself computes
is translated directly from the source.
-/

namespace PRComment

/-- Version communicated with Concourse (actions/source.go).  All four
fields are string encoded, exactly as in the Go struct. -/
structure Version where
  CreatedAt : String
  PrID      : String
  ReviewID  : String
  CommentID : String
deriving Repr, DecidableEq

/-- Metadata has a key name and value (actions/source.go). -/
structure MetadataField where
  Name  : String
  Value : String
deriving Repr, DecidableEq

/-- Metadata contains the serialized interface (actions/source.go);
`Metadata.Add` appends, so the Go slice is a Lean list. -/
abbrev Metadata := List MetadataField

/-- Source parameters provided by the resource (actions/source.go).
Only fields read by the embedded logic are carried; the credential and
endpoint fields, consumed solely by the HTTP client constructor, are kept
for completeness. -/
structure Source where
  SkipSSLVerification  : Bool := false
  GithubEndpoint       : String := ""
  Repository           : String := ""
  DisableGitLfs        : Bool := false
  AccessToken          : String := ""
  Username             : String := ""
  Password             : String := ""
  OnlyMergeable        : Bool := false
  States               : List String := []
  Labels               : List String := []
  Comments             : List String := []
  CommenterAssociation : List String := []
  MapCommentMeta       : Bool := false
  ReviewStates         : List String := []
  When                 : String := ""
  IgnoreStates         : List String := []
  IgnoreLabels         : List String := []
  IgnoreComments       : List String := []
  IgnoreDrafts         : Bool := false
deriving Repr

/-- Model of a Go `time.Time` value: the Unix seconds used by `Check`
(`.Unix()`), and the textual rendering used when the timestamp is
stringified into metadata (`fmt.Sprintf`). -/
structure GoTime where
  unix   : Int
  render : String
deriving Repr, DecidableEq

/-- External view of a pull request (the `github.PullRequest` fields the
sources dereference). -/
structure Pull where
  Number    : Int
  State     : String
  Labels    : List String
  Mergeable : Bool
  Draft     : Bool
  HeadRef   : String := ""
  HeadSHA   : String := ""
  BaseRef   : String := ""
  BaseSHA   : String := ""
deriving Repr

/-- External view of an issue comment (the `github.IssueComment` fields the
sources dereference). -/
structure CommentRec where
  ID                : Int
  Body              : String
  AuthorAssociation : String
  CreatedAt         : GoTime
  UpdatedAt         : GoTime := ⟨0, ""⟩
  HTMLURL           : String := ""
  UserLogin         : String := ""
  UserID            : Int := 0
  UserAvatarURL     : String := ""
  UserHTMLURL       : String := ""
deriving Repr

/-- External view of a pull-request review (the `github.PullRequestReview`
fields the sources dereference). -/
structure ReviewRec where
  ID                : Int
  Body              : String
  State             : String
  SubmittedAt       : GoTime
  AuthorAssociation : String := ""
  HTMLURL           : String := ""
  UserLogin         : String := ""
  UserID            : Int := 0
  UserAvatarURL     : String := ""
  UserHTMLURL       : String := ""
deriving Repr

/-- Go's `strconv.FormatInt i 10` / `strconv.Itoa`: decimal rendering of an
integer.  `Int.repr` produces the same digit string (optional leading
minus, no padding). -/
def goFormatInt (i : Int) : String := Int.repr i

/-! ### Source filter predicates (actions/source.go) -/

/-- requestsState checks whether the source requests this particular state
(actions/source.go).  The first pass defaults to accepting only "open" when
no states are configured, otherwise scans the allow-list; the second pass
forces the result to false when the state is in the ignore list. -/
def Source.requestsState (source : Source) (state : String) : Bool :=
  let ret :=
    if source.States.isEmpty then state == "open"
    else source.States.any (fun s => s == state)
  if source.IgnoreStates.any (fun s => s == state) then false else ret

/-- requestsReviewState checks whether the PR review matches the desired
state (actions/source.go); comparison is case-insensitive and an empty
allow-list accepts nothing. -/
def Source.requestsReviewState (source : Source) (state : String) : Bool :=
  source.ReviewStates.any (fun s => state.toLower == s.toLower)

/-- requestsLabels checks whether the source requests these set of labels
(actions/source.go); labels are carried by name. -/
def Source.requestsLabels (source : Source) (labels : List String) : Bool :=
  let ret :=
    if source.Labels.isEmpty then true
    else source.Labels.any (fun rl => labels.any (fun rr => rl == rr))
  if source.IgnoreLabels.any (fun rl => labels.any (fun rr => rl == rr)) then false
  else ret

/-- requestsCommenterAssociation checks the comment author's association
(actions/source.go). -/
def Source.requestsCommenterAssociation (source : Source) (assoc : String) : Bool :=
  if source.CommenterAssociation.isEmpty ||
      (source.CommenterAssociation.length == 1 &&
        source.CommenterAssociation.headD "" == "all") then
    true
  else
    source.CommenterAssociation.any (fun a => assoc.toLower == a.toLower)

/-- Result of one call to Go's `regexp.Match pattern body`: either a boolean
match result, or a compile error for a malformed pattern.  The engine
itself is external; a `Matcher` is the oracle the embedded code consults. -/
abbrev Matcher := String → String → Except String Bool

/-- The Go statement `matched, _ := regexp.Match(c, ...)` : the error return
is discarded, and `regexp.Match` reports `false` together with the error
when the pattern fails to compile, so an erroring call behaves as `false`. -/
def matchDiscardErr (r : Except String Bool) : Bool :=
  match r with
  | .ok b => b
  | .error _ => false

/-- requestsCommentRegex determines if the source requests this comment
regex (actions/source.go).  Each configured pattern is handed to the
regexp engine with the error result discarded, mirroring
`matched, _ := regexp.Match(c, []byte(comment))`. -/
def Source.requestsCommentRegex (m : Matcher) (source : Source) (comment : String) : Bool :=
  let ret :=
    if source.Comments.isEmpty then true
    else source.Comments.any (fun c => matchDiscardErr (m c comment))
  if source.IgnoreComments.any (fun c => matchDiscardErr (m c comment)) then false
  else ret

/-! ### The check engine (actions/check.go) -/

/-- One pull request together with its comment and review timelines: the
data a successful run of the API client hands `Check` for that PR. -/
structure PullData where
  pull     : Pull
  comments : List CommentRec
  reviews  : List ReviewRec

/-- The Version literal built for a matching comment (check.go lines
159-163). -/
def mkCommentVersion (prNumber : Int) (c : CommentRec) : Version :=
  { CreatedAt := goFormatInt c.CreatedAt.unix
    PrID      := goFormatInt prNumber
    ReviewID  := ""
    CommentID := goFormatInt c.ID }

/-- The Version literal built for a matching review (check.go lines
204-208). -/
def mkReviewVersion (prNumber : Int) (r : ReviewRec) : Version :=
  { CreatedAt := goFormatInt r.SubmittedAt.unix
    PrID      := goFormatInt prNumber
    ReviewID  := goFormatInt r.ID
    CommentID := "" }

/-- The comment loop of `Check` (check.go lines 143-174): the state is the
accumulated version list, the `version` pointer holding the last matching
comment's version, and the `latestCommentIsMatch` flag, reset on every
non-matching comment.  In "all"/"first" mode each match is appended at
once; "first" mode stops at the first match. -/
def commentLoop (m : Matcher) (src : Source) (prNumber : Int) :
    List CommentRec → List Version → Option Version → Bool →
    List Version × Option Version × Bool
  | [], versions, version, latest => (versions, version, latest)
  | c :: rest, versions, version, _ =>
    if !(src.requestsCommenterAssociation c.AuthorAssociation) then
      commentLoop m src prNumber rest versions version false
    else if !(Source.requestsCommentRegex m src c.Body) then
      commentLoop m src prNumber rest versions version false
    else
      let v := mkCommentVersion prNumber c
      let versions :=
        if src.When == "all" || src.When == "first" then versions ++ [v]
        else versions
      if src.When == "first" then (versions, some v, true)
      else commentLoop m src prNumber rest versions (some v) true

/-- The review loop of `Check` (check.go lines 189-219), symmetric to the
comment loop but gated on `requestsReviewState`. -/
def reviewLoop (m : Matcher) (src : Source) (prNumber : Int) :
    List ReviewRec → List Version → Option Version → Bool →
    List Version × Option Version × Bool
  | [], versions, version, latest => (versions, version, latest)
  | r :: rest, versions, version, _ =>
    if !(src.requestsReviewState r.State) then
      reviewLoop m src prNumber rest versions version false
    else if !(Source.requestsCommentRegex m src r.Body) then
      reviewLoop m src prNumber rest versions version false
    else
      let v := mkReviewVersion prNumber r
      let versions :=
        if src.When == "all" || src.When == "first" then versions ++ [v]
        else versions
      if src.When == "first" then (versions, some v, true)
      else reviewLoop m src prNumber rest versions (some v) true

/-- The versions the comment track contributes for one PR, starting from an
empty accumulator: the loop above followed by the "latest" append of
check.go lines 177-179 (`versions = append(versions, *version)`, reached
only when the flag is set, in which case the pointer is non-nil). -/
def commentTrack (m : Matcher) (src : Source) (prNumber : Int)
    (comments : List CommentRec) : List Version :=
  let s := commentLoop m src prNumber comments [] none false
  if src.When == "latest" && s.2.2 then s.1 ++ s.2.1.toList else s.1

/-- The body of `Check`'s PR loop (check.go lines 112-224) for a PR that
passed the state, label, mergeable and draft filters: comment loop, its
"latest" append, review loop, and its "latest" append, threading the
accumulated versions and the shared `version` pointer. -/
def checkPR (m : Matcher) (src : Source) (versions : List Version)
    (pd : PullData) : List Version :=
  let s1 := commentLoop m src pd.pull.Number pd.comments versions none false
  let versions :=
    if src.When == "latest" && s1.2.2 then s1.1 ++ s1.2.1.toList else s1.1
  let s2 := reviewLoop m src pd.pull.Number pd.reviews versions s1.2.1 false
  if src.When == "latest" && s2.2.2 then s2.1 ++ s2.2.1.toList else s2.1

/-- The PR loop of `Check` (check.go lines 112-225): skips PRs whose state
or labels are not requested, non-mergeable PRs when `only_mergeable` is
set, and drafts; otherwise runs both tracks. -/
def collectVersions (m : Matcher) (src : Source) (pulls : List PullData) :
    List Version :=
  pulls.foldl
    (fun versions pd =>
      if !(src.requestsState pd.pull.State) then versions
      else if !(src.requestsLabels pd.pull.Labels) then versions
      else if src.OnlyMergeable && !pd.pull.Mergeable then versions
      else if pd.pull.Draft then versions
      else checkPR m src versions pd)
    []

/-- The comparison `Check` sorts by (check.go lines 227-229): Go string
order on the `CreatedAt` field.  `sort.Slice` with the strict `<` less
function produces a list sorted under the reflexive closure. -/
def vLE (a b : Version) : Prop := a.CreatedAt ≤ b.CreatedAt

instance : DecidableRel vLE := fun a b =>
  inferInstanceAs (Decidable (a.CreatedAt ≤ b.CreatedAt))

instance : IsTotal Version vLE := ⟨fun a b => le_total a.CreatedAt b.CreatedAt⟩

instance : IsTrans Version vLE := ⟨fun _ _ _ h1 h2 => le_trans h1 h2⟩

/-- The final sort of check.go lines 227-229.  `sort.Slice` guarantees only
a permutation sorted under the comparison; insertion sort is one
deterministic realization of that contract (on the concrete inputs used
below with pairwise distinct keys, every realization agrees). -/
def sortByCreatedAt (l : List Version) : List Version :=
  List.insertionSort vLE l

/-- `Check` (check.go lines 87-232) on the data a successful client run
returns: default the selection mode to "latest", collect versions across
all PRs, and sort by the string-encoded creation timestamp. -/
def Check (m : Matcher) (src : Source) (pulls : List PullData) : List Version :=
  let src := if src.When.length == 0 then { src with When := "latest" } else src
  sortByCreatedAt (collectVersions m src pulls)

/-! ### Theorems about the filter predicates -/

/-- Claim C8: for every PR state string, with empty configured `states` the
state predicate accepts exactly the state "open"; with non-empty `states`
it accepts exactly the states in the configured set; and in either case any
state also listed in `ignore_states` is rejected (the deny-list wins). -/
theorem requestsState_spec (src : Source) (state : String) :
    src.requestsState state = true ↔
      ((if src.States = [] then state = "open" else state ∈ src.States) ∧
        state ∉ src.IgnoreStates) := by
  unfold Source.requestsState
  by_cases hig : state ∈ src.IgnoreStates
  · have h : src.IgnoreStates.any (fun s => s == state) = true :=
      List.any_eq_true.mpr ⟨state, hig, by simp⟩
    simp only [h, if_true, Bool.false_eq_true, false_iff]
    intro hc
    exact hc.2 hig
  · have h : src.IgnoreStates.any (fun s => s == state) = false := by
      rw [List.any_eq_false]
      intro s hs hbeq
      exact hig (beq_iff_eq.mp hbeq ▸ hs)
    simp only [h, Bool.false_eq_true, if_false, List.isEmpty_iff]
    by_cases hst : src.States = []
    · simp [hst, beq_iff_eq, hig]
    · rw [if_neg hst, if_neg hst, List.any_eq_true]
      constructor
      · rintro ⟨s, hs, hbeq⟩
        exact ⟨(beq_iff_eq.mp hbeq) ▸ hs, hig⟩
      · rintro ⟨hmem, -⟩
        exact ⟨state, hmem, by simp⟩

/-! ### The "latest" selection mode of the comment track -/

/-- Unfolding equation for the comment loop on a cons cell. -/
lemma commentLoop_cons (m : Matcher) (src : Source) (n : Int) (c : CommentRec)
    (rest : List CommentRec) (vs : List Version) (ver : Option Version) (flag : Bool) :
    commentLoop m src n (c :: rest) vs ver flag =
      if !(src.requestsCommenterAssociation c.AuthorAssociation) then
        commentLoop m src n rest vs ver false
      else if !(Source.requestsCommentRegex m src c.Body) then
        commentLoop m src n rest vs ver false
      else if src.When == "first" then
        ((if src.When == "all" || src.When == "first" then
            vs ++ [mkCommentVersion n c] else vs),
          some (mkCommentVersion n c), true)
      else
        commentLoop m src n rest
          (if src.When == "all" || src.When == "first" then
            vs ++ [mkCommentVersion n c] else vs)
          (some (mkCommentVersion n c)) true := rfl

/-- In "latest" mode the comment loop never appends to the version list (the
appends are guarded by the "all"/"first" comparisons). -/
lemma commentLoop_latest_versions (m : Matcher) (src : Source) (n : Int)
    (hw : src.When = "latest") (cs : List CommentRec) :
    ∀ (vs : List Version) (ver : Option Version) (flag : Bool),
      (commentLoop m src n cs vs ver flag).1 = vs := by
  have hall : (src.When == "all") = false := by rw [hw]; rfl
  have hfirst : (src.When == "first") = false := by rw [hw]; rfl
  induction cs with
  | nil => intro vs ver flag; rfl
  | cons c rest ih =>
    intro vs ver flag
    rw [commentLoop_cons]
    by_cases ha : src.requestsCommenterAssociation c.AuthorAssociation = true
    · by_cases hr : Source.requestsCommentRegex m src c.Body = true
      · simp only [ha, hr, Bool.not_true, Bool.false_eq_true, if_false,
          hall, hfirst, Bool.or_self]
        exact ih _ _ _
      · simp only [ha, hr, Bool.not_true, Bool.not_false, Bool.false_eq_true,
          if_false, if_true]
        exact ih _ _ _
    · simp only [Bool.not_eq_true] at ha
      simp only [ha, Bool.not_false, if_true]
      exact ih _ _ _

/-- The version a loop state contributes through the "latest" append of
check.go: the tracked version when the match flag is set, nothing
otherwise. -/
def latestEmit (s : List Version × Option Version × Bool) : List Version :=
  if s.2.2 then s.2.1.toList else []

/-- In "latest" mode the loop's final flag and tracked version are governed
by the last comment of the list alone: if it passes both predicates the
loop emits exactly its version, and if it fails (or the list is empty) the
incoming state decides. -/
lemma commentLoop_latest_emit (m : Matcher) (src : Source) (n : Int)
    (hw : src.When = "latest") (cs : List CommentRec) :
    ∀ (vs : List Version) (ver : Option Version) (flag : Bool),
      latestEmit (commentLoop m src n cs vs ver flag) =
        match cs.getLast? with
        | some c =>
          if src.requestsCommenterAssociation c.AuthorAssociation &&
              Source.requestsCommentRegex m src c.Body then
            [mkCommentVersion n c]
          else []
        | none => if flag then ver.toList else [] := by
  have hall : (src.When == "all") = false := by rw [hw]; rfl
  have hfirst : (src.When == "first") = false := by rw [hw]; rfl
  induction cs with
  | nil =>
    intro vs ver flag
    rfl
  | cons c rest ih =>
    intro vs ver flag
    rw [commentLoop_cons]
    by_cases ha : src.requestsCommenterAssociation c.AuthorAssociation = true
    · by_cases hr : Source.requestsCommentRegex m src c.Body = true
      · simp only [ha, hr, Bool.not_true, Bool.false_eq_true, if_false,
          hall, hfirst, Bool.or_self]
        rw [ih]
        cases rest with
        | nil => simp [latestEmit, ha, hr]
        | cons r rs =>
          obtain ⟨x, hx⟩ := Option.isSome_iff_exists.mp
            (List.getLast?_isSome.mpr (List.cons_ne_nil r rs))
          rw [List.getLast?_cons_cons, hx]
      · simp only [ha, hr, Bool.not_true, Bool.not_false, Bool.false_eq_true,
          if_false, if_true]
        rw [ih]
        cases rest with
        | nil => simp [ha, hr]
        | cons r rs =>
          obtain ⟨x, hx⟩ := Option.isSome_iff_exists.mp
            (List.getLast?_isSome.mpr (List.cons_ne_nil r rs))
          rw [List.getLast?_cons_cons, hx]
    · simp only [Bool.not_eq_true] at ha
      simp only [ha, Bool.not_false, if_true]
      rw [ih]
      cases rest with
      | nil => simp [ha]
      | cons r rs =>
        obtain ⟨x, hx⟩ := Option.isSome_iff_exists.mp
          (List.getLast?_isSome.mpr (List.cons_ne_nil r rs))
        rw [List.getLast?_cons_cons, hx]

/-- In "latest" mode the comment track is exactly the latest-append
contribution. -/
lemma commentTrack_latest (m : Matcher) (src : Source) (n : Int)
    (cs : List CommentRec) (hw : src.When = "latest") :
    commentTrack m src n cs = latestEmit (commentLoop m src n cs [] none false) := by
  have hl : (src.When == "latest") = true := by rw [hw]; rfl
  simp only [commentTrack, latestEmit]
  rw [commentLoop_latest_versions m src n hw]
  cases hflag : (commentLoop m src n cs [] none false).2.2 <;> simp [hl, hflag]

/-- Claim C1: in selection mode "latest" the comment track of the check
operation emits a version if and only if the chronologically last examined
comment of the PR passes both the commenter-association predicate and the
comment-text predicate, and the single emitted version references that
last comment. -/
theorem check_latest_comment_track_spec (m : Matcher) (src : Source)
    (prNumber : Int) (comments : List CommentRec) (hw : src.When = "latest") :
    commentTrack m src prNumber comments =
      match comments.getLast? with
      | some c =>
        if src.requestsCommenterAssociation c.AuthorAssociation &&
            Source.requestsCommentRegex m src c.Body then
          [mkCommentVersion prNumber c]
        else []
      | none => [] := by
  rw [commentTrack_latest m src prNumber comments hw,
    commentLoop_latest_emit m src prNumber hw comments]
  cases comments.getLast? <;> rfl

/-- Matcher fixture for concrete runs: the oracle for literal patterns whose
match is exact equality with the body (Go's regexp agrees on the concrete
pattern and bodies used below). -/
def wMatcher : Matcher := fun p b => .ok (b == p)

/-- Source fixture: selection mode "latest", one comment pattern. -/
def wSourceLatest : Source := { When := "latest", Comments := ["ping"] }

/-- Comment fixture matching the pattern of `wSourceLatest`. -/
def wCommentMatch : CommentRec :=
  { ID := 2, Body := "ping", AuthorAssociation := "OWNER",
    CreatedAt := ⟨200, "t200"⟩ }

/-- Comment fixture not matching the pattern of `wSourceLatest`. -/
def wCommentNoMatch : CommentRec :=
  { ID := 1, Body := "pong!", AuthorAssociation := "OWNER",
    CreatedAt := ⟨100, "t100"⟩ }

/-- Witness for claim C1, the two scenarios of the spec: a matching comment
followed by a non-matching one emits nothing, a non-matching comment
followed by a matching one emits exactly the matching comment's version. -/
theorem check_latest_comment_track_witness :
    commentTrack wMatcher wSourceLatest 7 [wCommentMatch, wCommentNoMatch] = [] ∧
    commentTrack wMatcher wSourceLatest 7 [wCommentNoMatch, wCommentMatch] =
      [mkCommentVersion 7 wCommentMatch] := by
  constructor
  · rw [check_latest_comment_track_spec wMatcher wSourceLatest 7
      [wCommentMatch, wCommentNoMatch] rfl]
    rfl
  · rw [check_latest_comment_track_spec wMatcher wSourceLatest 7
      [wCommentNoMatch, wCommentMatch] rfl]
    rfl

/-! ### The version identifier invariant (claim C2) -/

/-- `Nat.toDigitsCore` with positive fuel always emits at least one digit. -/
lemma toDigitsCore_ne_nil (b : Nat) :
    ∀ (f n : Nat) (ds : List Char), Nat.toDigitsCore b (f + 1) n ds ≠ [] := by
  intro f
  induction f with
  | zero =>
    intro n ds
    simp only [Nat.toDigitsCore]
    split <;> simp
  | succ f ih =>
    intro n ds
    simp only [Nat.toDigitsCore]
    split
    · simp
    · exact ih _ _

/-- Decimal rendering of a natural number is never the empty string. -/
lemma natRepr_ne_empty (n : Nat) : Nat.repr n ≠ "" := by
  intro h
  exact toDigitsCore_ne_nil 10 n n [] (congrArg String.data h)

/-- `goFormatInt` (Go's `FormatInt`/`Itoa`) is never the empty string. -/
lemma goFormatInt_ne_empty (i : Int) : goFormatInt i ≠ "" := by
  unfold goFormatInt
  cases i with
  | ofNat m => exact natRepr_ne_empty m
  | negSucc m =>
    intro h
    have h' : "-" ++ Nat.repr (m + 1) = "" := h
    have hlen : ("-" ++ Nat.repr (m + 1)).length = 0 := by rw [h']; rfl
    simp [String.length_append] at hlen
    exact absurd hlen.1 (by decide)

/-- Membership in the comment loop's output list or tracked version comes
from the incoming state or from a comment version of one of the walked
comments. -/
lemma commentLoop_mem (m : Matcher) (src : Source) (n : Int) :
    ∀ (cs : List CommentRec) (vs : List Version) (ver : Option Version)
      (flag : Bool) (v : Version),
      (v ∈ (commentLoop m src n cs vs ver flag).1 ∨
        (commentLoop m src n cs vs ver flag).2.1 = some v) →
      (v ∈ vs ∨ ver = some v) ∨ ∃ c ∈ cs, v = mkCommentVersion n c := by
  intro cs
  induction cs with
  | nil =>
    intro vs ver flag v hv
    exact .inl hv
  | cons c rest ih =>
    intro vs ver flag v hv
    rw [commentLoop_cons] at hv
    split at hv
    · rcases ih _ _ _ _ hv with h | h
      · exact .inl h
      · obtain ⟨c', hc', hv'⟩ := h
        exact .inr ⟨c', List.mem_cons_of_mem c hc', hv'⟩
    · split at hv
      · rcases ih _ _ _ _ hv with h | h
        · exact .inl h
        · obtain ⟨c', hc', hv'⟩ := h
          exact .inr ⟨c', List.mem_cons_of_mem c hc', hv'⟩
      · split at hv
        · rcases hv with hv | hv
          · split at hv
            · rcases List.mem_append.mp hv with h' | h'
              · exact .inl (.inl h')
              · exact .inr ⟨c, List.mem_cons_self c rest, List.mem_singleton.mp h'⟩
            · exact .inl (.inl hv)
          · exact .inr ⟨c, List.mem_cons_self c rest, (Option.some.inj hv).symm⟩
        · rcases ih _ _ _ _ hv with h | h
          · rcases h with h | h
            · split at h
              · rcases List.mem_append.mp h with h' | h'
                · exact .inl (.inl h')
                · exact .inr ⟨c, List.mem_cons_self c rest,
                    List.mem_singleton.mp h'⟩
              · exact .inl (.inl h)
            · exact .inr ⟨c, List.mem_cons_self c rest, (Option.some.inj h).symm⟩
          · obtain ⟨c', hc', hv'⟩ := h
            exact .inr ⟨c', List.mem_cons_of_mem c hc', hv'⟩

/-- Unfolding equation for the review loop on a cons cell. -/
lemma reviewLoop_cons (m : Matcher) (src : Source) (n : Int) (r : ReviewRec)
    (rest : List ReviewRec) (vs : List Version) (ver : Option Version) (flag : Bool) :
    reviewLoop m src n (r :: rest) vs ver flag =
      if !(src.requestsReviewState r.State) then
        reviewLoop m src n rest vs ver false
      else if !(Source.requestsCommentRegex m src r.Body) then
        reviewLoop m src n rest vs ver false
      else if src.When == "first" then
        ((if src.When == "all" || src.When == "first" then
            vs ++ [mkReviewVersion n r] else vs),
          some (mkReviewVersion n r), true)
      else
        reviewLoop m src n rest
          (if src.When == "all" || src.When == "first" then
            vs ++ [mkReviewVersion n r] else vs)
          (some (mkReviewVersion n r)) true := rfl

/-- Membership in the review loop's output list or tracked version comes
from the incoming state or from a review version of one of the walked
reviews. -/
lemma reviewLoop_mem (m : Matcher) (src : Source) (n : Int) :
    ∀ (rs : List ReviewRec) (vs : List Version) (ver : Option Version)
      (flag : Bool) (v : Version),
      (v ∈ (reviewLoop m src n rs vs ver flag).1 ∨
        (reviewLoop m src n rs vs ver flag).2.1 = some v) →
      (v ∈ vs ∨ ver = some v) ∨ ∃ r ∈ rs, v = mkReviewVersion n r := by
  intro rs
  induction rs with
  | nil =>
    intro vs ver flag v hv
    exact .inl hv
  | cons r rest ih =>
    intro vs ver flag v hv
    rw [reviewLoop_cons] at hv
    split at hv
    · rcases ih _ _ _ _ hv with h | h
      · exact .inl h
      · obtain ⟨r', hr', hv'⟩ := h
        exact .inr ⟨r', List.mem_cons_of_mem r hr', hv'⟩
    · split at hv
      · rcases ih _ _ _ _ hv with h | h
        · exact .inl h
        · obtain ⟨r', hr', hv'⟩ := h
          exact .inr ⟨r', List.mem_cons_of_mem r hr', hv'⟩
      · split at hv
        · rcases hv with hv | hv
          · split at hv
            · rcases List.mem_append.mp hv with h' | h'
              · exact .inl (.inl h')
              · exact .inr ⟨r, List.mem_cons_self r rest, List.mem_singleton.mp h'⟩
            · exact .inl (.inl hv)
          · exact .inr ⟨r, List.mem_cons_self r rest, (Option.some.inj hv).symm⟩
        · rcases ih _ _ _ _ hv with h | h
          · rcases h with h | h
            · split at h
              · rcases List.mem_append.mp h with h' | h'
                · exact .inl (.inl h')
                · exact .inr ⟨r, List.mem_cons_self r rest,
                    List.mem_singleton.mp h'⟩
              · exact .inl (.inl h)
            · exact .inr ⟨r, List.mem_cons_self r rest, (Option.some.inj h).symm⟩
          · obtain ⟨r', hr', hv'⟩ := h
            exact .inr ⟨r', List.mem_cons_of_mem r hr', hv'⟩

/-- Membership in a conditional latest-append step. -/
lemma latestAppend_mem {cond : Bool} {l : List Version} {o : Option Version}
    {v : Version} (hv : v ∈ (if cond = true then l ++ o.toList else l)) :
    v ∈ l ∨ o = some v := by
  split at hv
  · rcases List.mem_append.mp hv with h | h
    · exact .inl h
    · cases o with
      | none => simp [Option.toList] at h
      | some w =>
        simp only [Option.toList, List.mem_singleton] at h
        exact .inr (by rw [h])
  · exact .inl hv

/-- Membership in the output of one PR-loop iteration comes from the
incoming accumulator or from a comment/review version of that PR. -/
lemma checkPR_mem (m : Matcher) (src : Source) (vs : List Version)
    (pd : PullData) (v : Version) (hv : v ∈ checkPR m src vs pd) :
    v ∈ vs ∨
      (∃ c ∈ pd.comments, v = mkCommentVersion pd.pull.Number c) ∨
      (∃ r ∈ pd.reviews, v = mkReviewVersion pd.pull.Number r) := by
  simp only [checkPR] at hv
  set s1 := commentLoop m src pd.pull.Number pd.comments vs none false with hs1
  set vs1 := if (src.When == "latest" && s1.2.2) = true then
      s1.1 ++ s1.2.1.toList else s1.1 with hvs1
  set s2 := reviewLoop m src pd.pull.Number pd.reviews vs1 s1.2.1 false with hs2
  have fromComment :
      ∀ w : Version,
        (w ∈ s1.1 ∨ s1.2.1 = some w) →
        w ∈ vs ∨ ∃ c ∈ pd.comments, w = mkCommentVersion pd.pull.Number c := by
    intro w hw
    rcases commentLoop_mem m src pd.pull.Number pd.comments vs none false w hw with h | h
    · rcases h with h | h
      · exact .inl h
      · exact absurd h (by simp)
    · exact .inr h
  have h2 : v ∈ s2.1 ∨ s2.2.1 = some v := latestAppend_mem hv
  rcases reviewLoop_mem m src pd.pull.Number pd.reviews vs1 s1.2.1 false v h2 with h | h
  · rcases h with h | h
    · rw [hvs1] at h
      rcases fromComment v (latestAppend_mem h) with h' | h'
      · exact .inl h'
      · exact .inr (.inl h')
    · rcases fromComment v (.inr h) with h' | h'
      · exact .inl h'
      · exact .inr (.inl h')
  · exact .inr (.inr h)

/-- Membership in the collected versions comes from some PR's comment or
review timeline. -/
lemma collectVersions_mem (m : Matcher) (src : Source) (pulls : List PullData)
    (v : Version) (hv : v ∈ collectVersions m src pulls) :
    ∃ pd ∈ pulls,
      (∃ c ∈ pd.comments, v = mkCommentVersion pd.pull.Number c) ∨
      (∃ r ∈ pd.reviews, v = mkReviewVersion pd.pull.Number r) := by
  unfold collectVersions at hv
  suffices h : ∀ (ps : List PullData) (acc : List Version),
      v ∈ ps.foldl (fun versions pd =>
        if !(src.requestsState pd.pull.State) then versions
        else if !(src.requestsLabels pd.pull.Labels) then versions
        else if src.OnlyMergeable && !pd.pull.Mergeable then versions
        else if pd.pull.Draft then versions
        else checkPR m src versions pd) acc →
      v ∈ acc ∨ ∃ pd ∈ ps,
        (∃ c ∈ pd.comments, v = mkCommentVersion pd.pull.Number c) ∨
        (∃ r ∈ pd.reviews, v = mkReviewVersion pd.pull.Number r) by
    rcases h pulls [] hv with h' | h'
    · exact absurd h' (List.not_mem_nil v)
    · exact h'
  intro ps
  induction ps with
  | nil => intro acc hacc; exact .inl hacc
  | cons pd rest ih =>
    intro acc hacc
    simp only [List.foldl_cons] at hacc
    have step :
        ∀ acc' : List Version,
          v ∈ acc' ∨
            (∃ c ∈ pd.comments, v = mkCommentVersion pd.pull.Number c) ∨
            (∃ r ∈ pd.reviews, v = mkReviewVersion pd.pull.Number r) →
          v ∈ acc' ∨
            (∃ c ∈ pd.comments, v = mkCommentVersion pd.pull.Number c) ∨
            (∃ r ∈ pd.reviews, v = mkReviewVersion pd.pull.Number r) := fun _ h => h
    rcases ih _ hacc with h | h
    · have :
          v ∈ acc ∨
            (∃ c ∈ pd.comments, v = mkCommentVersion pd.pull.Number c) ∨
            (∃ r ∈ pd.reviews, v = mkReviewVersion pd.pull.Number r) := by
        split at h
        · exact .inl h
        · split at h
          · exact .inl h
          · split at h
            · exact .inl h
            · split at h
              · exact .inl h
              · exact checkPR_mem m src acc pd v h
      rcases this with h' | h'
      · exact .inl h'
      · exact .inr ⟨pd, List.mem_cons_self pd rest, h'⟩
    · obtain ⟨pd', hpd', h'⟩ := h
      exact .inr ⟨pd', List.mem_cons_of_mem pd hpd', h'⟩

/-- Claim C2: every Version in the result of the check operation, for any
inputs and any selection mode, has its PR identifier set and exactly one of
the comment identifier or the review identifier set to a non-empty value -
never both and never neither. -/
theorem check_version_identifier_invariant (m : Matcher) (src : Source)
    (pulls : List PullData) (v : Version) (hv : v ∈ Check m src pulls) :
    v.PrID ≠ "" ∧
      ((v.CommentID ≠ "" ∧ v.ReviewID = "") ∨
        (v.CommentID = "" ∧ v.ReviewID ≠ "")) := by
  unfold Check at hv
  set src' := if src.When.length == 0 then { src with When := "latest" } else src with hsrc'
  have hv' : v ∈ collectVersions m src' pulls :=
    ((List.perm_insertionSort vLE (collectVersions m src' pulls)).mem_iff).mp hv
  obtain ⟨pd, _, h⟩ := collectVersions_mem m src' pulls v hv'
  rcases h with ⟨c, _, rfl⟩ | ⟨r, _, rfl⟩
  · exact ⟨goFormatInt_ne_empty _, .inl ⟨goFormatInt_ne_empty _, rfl⟩⟩
  · exact ⟨goFormatInt_ne_empty _, .inr ⟨rfl, goFormatInt_ne_empty _⟩⟩

/-- Pull request fixture passing all of `wSourceLatest`'s filters. -/
def wPull : Pull :=
  { Number := 7, State := "open", Labels := [], Mergeable := true, Draft := false }

/-- Witness for claim C2: a concrete check run emits a version, and that
version satisfies the identifier invariant. -/
theorem check_version_identifier_invariant_witness :
    (mkCommentVersion 7 wCommentMatch).PrID ≠ "" ∧
      (((mkCommentVersion 7 wCommentMatch).CommentID ≠ "" ∧
          (mkCommentVersion 7 wCommentMatch).ReviewID = "") ∨
        ((mkCommentVersion 7 wCommentMatch).CommentID = "" ∧
          (mkCommentVersion 7 wCommentMatch).ReviewID ≠ "")) :=
  check_version_identifier_invariant wMatcher wSourceLatest
    [{ pull := wPull, comments := [wCommentMatch], reviews := [] }]
    (mkCommentVersion 7 wCommentMatch) (by decide)

/-! ### Malformed regular expressions in the comment-text predicate (claim C3) -/

/-- Matcher fixture modelling Go's `regexp.Match` on two concrete patterns:
the pattern `"("` fails to compile (`regexp.Match` returns `false` plus a
compile error) and the pattern `"zzz"` compiles but matches nothing we use
below. -/
def wBadMatcher : Matcher := fun p _ =>
  if p == "(" then .error "error parsing regexp: missing closing )"
  else .ok false

/-- The same matcher with every compile failure replaced by a successful
non-match. -/
def wBadMatcherOk : Matcher := fun p b =>
  match wBadMatcher p b with
  | .error _ => .ok false
  | .ok c => .ok c

/-- Claim C3 counterexample: with the malformed pattern `"("` as the only
`comments` entry, the comment-text predicate returns plain `false` - the
same value as for a well-formed pattern that simply does not match - and
no error reaches the caller (the predicate's type has no error channel:
check.go consumes a bare Bool).  The malformed pattern is silently
skipped, contradicting the claim. -/
theorem commentRegex_malformed_cex :
    Source.requestsCommentRegex wBadMatcher { Comments := ["("] } "hello" =
        Source.requestsCommentRegex wBadMatcher { Comments := ["zzz"] } "hello" ∧
      Source.requestsCommentRegex wBadMatcher { Comments := ["("] } "hello" = false := by
  constructor <;> rfl

/-- Claim C3 (amended): a pattern in `comments` or `ignore_comments` that
fails to compile is silently treated as non-matching: replacing every
failing pattern evaluation by a successful non-match leaves the predicate's
value unchanged, and no configuration error is surfaced (the predicate
returns a bare Bool). -/
theorem commentRegex_error_discarded (m m' : Matcher) (src : Source)
    (body : String)
    (h : ∀ p, m' p body =
      match m p body with
      | .error _ => .ok false
      | .ok b => .ok b) :
    Source.requestsCommentRegex m src body =
      Source.requestsCommentRegex m' src body := by
  have hd : ∀ p, matchDiscardErr (m p body) = matchDiscardErr (m' p body) := by
    intro p
    rw [h p]
    cases m p body <;> rfl
  unfold Source.requestsCommentRegex
  simp only [hd]

/-- Witness for the amended claim C3 at a concrete malformed pattern. -/
theorem commentRegex_error_discarded_witness :
    Source.requestsCommentRegex wBadMatcher
        { Comments := ["(", "zzz"], IgnoreComments := ["("] } "hello" =
      Source.requestsCommentRegex wBadMatcherOk
        { Comments := ["(", "zzz"], IgnoreComments := ["("] } "hello" :=
  commentRegex_error_discarded wBadMatcher wBadMatcherOk
    { Comments := ["(", "zzz"], IgnoreComments := ["("] } "hello"
    (fun _ => rfl)

/-! ### The final sort of the check output (claim C4) -/

/-- Comment fixture with nine-digit Unix timestamp 999999999. -/
def wComment999 : CommentRec :=
  { ID := 10, Body := "x", AuthorAssociation := "NONE",
    CreatedAt := ⟨999999999, "t"⟩ }

/-- Comment fixture with ten-digit Unix timestamp 1000000000. -/
def wComment1000 : CommentRec :=
  { ID := 11, Body := "x", AuthorAssociation := "NONE",
    CreatedAt := ⟨1000000000, "t"⟩ }

/-- Claim C4 counterexample: check.go sorts by Go string comparison of the
decimal timestamps, so a successful check on two comments with numeric
timestamps 999999999 < 1000000000 (both valid Unix times) returns the
ten-digit version first - the pair is ordered against the numeric
ascending order the claim states, because "1000000000" < "999999999"
lexicographically. -/
theorem check_sort_numeric_cex :
    Check wMatcher { When := "all" }
        [{ pull := wPull, comments := [wComment999, wComment1000], reviews := [] }] =
      [⟨"1000000000", "7", "", "11"⟩, ⟨"999999999", "7", "", "10"⟩] ∧
    (999999999 : Int) < 1000000000 := by
  constructor
  · have h0 : Check wMatcher { When := "all" }
        [{ pull := wPull, comments := [wComment999, wComment1000], reviews := [] }] =
        sortByCreatedAt
          [⟨"999999999", "7", "", "10"⟩, ⟨"1000000000", "7", "", "11"⟩] := rfl
    rw [h0]
    have hle : ¬ vLE (⟨"999999999", "7", "", "10"⟩ : Version)
        ⟨"1000000000", "7", "", "11"⟩ := by
      show ¬ (("999999999" : String) ≤ "1000000000")
      rw [String.le_iff_toList_le]
      decide
    simp [sortByCreatedAt, List.insertionSort, List.orderedInsert, hle]
  · norm_num

/-- Claim C4 (amended): the final version list returned by a successful
check is a permutation of the collected versions that is sorted ascending
by Go string (lexicographic) comparison of the creation timestamps - for
equal-width decimal timestamps this coincides with numeric order.  (The
source uses `sort.Slice`, which guarantees a sorted permutation but not
stability, and compares strings, not numbers.) -/
theorem check_output_sorted_perm (m : Matcher) (src : Source)
    (pulls : List PullData) :
    List.Sorted vLE (Check m src pulls) ∧
      (Check m src pulls).Perm
        (collectVersions m
          (if src.When.length == 0 then { src with When := "latest" } else src)
          pulls) :=
  ⟨List.sorted_insertionSort vLE _, List.perm_insertionSort vLE _⟩

/-! ### Environment expansion in the out step (actions/out.go) -/

/-- Go `os.Expand`'s `isShellSpecialVar`: the single-character shell
parameter names (braces written by code, digits covered by the range). -/
def isShellSpecialVar (c : Char) : Bool :=
  c = '*' || c = '#' || c = '$' || c = '@' || c = '!' || c = '?' || c = '+' ||
  c = ',' || c = '-' || c = '.' || c = '/' || c = ':' || c = '=' || c = '^' ||
  c = '~' || c = '%' || c = '[' || c = ']' || c = '\x7b' || c = '\x7d' ||
  ('0' ≤ c && c ≤ '9')

/-- Go `os.Expand`'s `isAlphaNum`. -/
def isAlphaNum (c : Char) : Bool :=
  c = '_' || ('0' ≤ c && c ≤ '9') || ('a' ≤ c && c ≤ 'z') || ('A' ≤ c && c ≤ 'Z')

/-- Go `os.Expand`'s `getShellName` on the text following a `$`: returns the
referenced name and the number of characters consumed.  A leading brace
selects the brace-delimited form; a shell special character is a
one-character name; otherwise the leading alphanumeric run is the name
(possibly empty, consuming nothing). -/
def getShellName (s : List Char) : List Char × Nat :=
  match s with
  | [] => ([], 0)
  | c :: rest =>
    if c = '\x7b' then
      match rest with
      | c1 :: c2 :: _ =>
        if isShellSpecialVar c1 && c2 = '\x7d' then ([c1], 3)
        else
          match rest.indexOf? '\x7d' with
          | some 0 => ([], 2)
          | some k => (rest.take k, k + 2)
          | none => ([], 1)
      | _ =>
        match rest.indexOf? '\x7d' with
        | some 0 => ([], 2)
        | some k => (rest.take k, k + 2)
        | none => ([], 1)
    else if isShellSpecialVar c then ([c], 1)
    else
      ((c :: rest).takeWhile isAlphaNum, ((c :: rest).takeWhile isAlphaNum).length)

/-- Go `os.Expand` over the characters of the input: scans for `$`, asks
`getShellName` for the reference that follows, and replaces it with the
mapping's value; invalid syntax is eaten, a lone `$` is kept. -/
def osExpand (mapping : String → String) : List Char → List Char
  | [] => []
  | c :: rest =>
    if c = '$' ∧ rest ≠ [] then
      if (getShellName rest).1 = [] ∧ (getShellName rest).2 > 0 then
        osExpand mapping (rest.drop (getShellName rest).2)
      else if (getShellName rest).1 = [] then
        '$' :: osExpand mapping rest
      else
        (mapping (String.mk (getShellName rest).1)).toList ++
          osExpand mapping (rest.drop (getShellName rest).2)
    else c :: osExpand mapping rest
termination_by l => l.length
decreasing_by
  all_goals simp [List.length_drop]
  all_goals omega

/-- The fixed allow-list of Concourse environment variables expanded by
out.go's `safeExpandEnv`. -/
def envAllowList : List String :=
  ["BUILD_ID", "BUILD_NAME", "BUILD_JOB_NAME", "BUILD_PIPELINE_NAME",
    "BUILD_TEAM_NAME", "ATC_EXTERNAL_URL"]

/-- The mapping closure `safeExpandEnv` passes to `os.Expand` (out.go lines
239-251): an allow-listed name reads the environment (`os.Getenv`, modelled
by `env`); every other name is rendered back as its own `$`-reference. -/
def safeMapping (env : String → String) (v : String) : String :=
  if v ∈ envAllowList then env v else "$" ++ v

/-- `safeExpandEnv` (out.go lines 238-252), applied by `Out` to the comment
text before posting. -/
def safeExpandEnv (env : String → String) (s : String) : String :=
  String.mk (osExpand (safeMapping env) s.toList)

/-- Claim C9: comment-text expansion replaces only references to the fixed
allow-list; every other name maps back to its own `$`-reference, so any two
environments that agree on the allow-listed variables produce identical
expanded text on every input, regardless of all other variables. -/
theorem safeExpandEnv_noninterference (env1 env2 : String → String)
    (h : ∀ v ∈ envAllowList, env1 v = env2 v) :
    (∀ v, v ∉ envAllowList → safeMapping env1 v = "$" ++ v) ∧
      ∀ s, safeExpandEnv env1 s = safeExpandEnv env2 s := by
  have hm : safeMapping env1 = safeMapping env2 := by
    funext v
    unfold safeMapping
    by_cases hv : v ∈ envAllowList
    · simp [hv, h v hv]
    · simp [hv]
  refine ⟨fun v hv => by simp [safeMapping, hv], fun s => ?_⟩
  unfold safeExpandEnv
  rw [hm]

/-- Environment fixture leaking "secret-one" through every variable outside
the allow-list. -/
def wEnv1 : String → String := fun v =>
  if v ∈ envAllowList then "ci" else "secret-one"

/-- Environment fixture agreeing with `wEnv1` exactly on the allow-list. -/
def wEnv2 : String → String := fun v =>
  if v ∈ envAllowList then "ci" else "secret-two"

/-- Witness for claim C9: two environments agreeing only on the allow-list
expand a text mentioning both an allow-listed and a foreign variable to the
same result. -/
theorem safeExpandEnv_noninterference_witness :
    (∀ v ∈ envAllowList, wEnv1 v = wEnv2 v) ∧
      safeExpandEnv wEnv1 "ping $BUILD_ID for $SECRET_TOKEN" =
        safeExpandEnv wEnv2 "ping $BUILD_ID for $SECRET_TOKEN" := by
  have h : ∀ v ∈ envAllowList, wEnv1 v = wEnv2 v := by
    intro v hv
    simp [wEnv1, wEnv2, hv]
  exact ⟨h, (safeExpandEnv_noninterference wEnv1 wEnv2 h).2 _⟩

/-! ### Deleting the last own comment (api/github.go) -/

/-- The decision core of `DeleteLastPullRequestComment` (github.go lines
209-245) once the comment list and the authenticated user are fetched: the
loop keeps the ID of the last comment whose author equals the token's user,
and a deletion is issued only when that ID is positive.  `some id` models
"delete comment `id`", `none` models the nil-error return with no
deletion. -/
def deleteLastPullRequestComment (comments : List CommentRec)
    (userID : Int) : Option Int :=
  let commentID := comments.foldl
    (fun acc c => if c.UserID == userID then c.ID else acc) 0
  if commentID > 0 then some commentID else none

/-- Appending to the front preserves a known last element. -/
lemma getLast?_cons_some {α : Type} (c x : α) {l : List α}
    (h : l.getLast? = some x) : (c :: l).getLast? = some x := by
  cases l with
  | nil => simp at h
  | cons y ys => rw [List.getLast?_cons_cons]; exact h

/-- The last element of a cons over an empty tail is its head. -/
lemma getLast?_cons_none {α : Type} (c : α) {l : List α}
    (h : l.getLast? = none) : (c :: l).getLast? = some c := by
  cases l with
  | nil => rfl
  | cons y ys => simp at h

/-- The delete-last fold returns the ID of the last comment of the filtered
list, or the accumulator when no comment matches. -/
lemma deleteLast_foldl (userID : Int) :
    ∀ (cs : List CommentRec) (acc : Int),
      cs.foldl (fun a c => if c.UserID == userID then c.ID else a) acc =
        match (cs.filter (fun c => c.UserID == userID)).getLast? with
        | some c => c.ID
        | none => acc := by
  intro cs
  induction cs with
  | nil => intro acc; rfl
  | cons c rest ih =>
    intro acc
    rw [List.foldl_cons]
    by_cases hc : (c.UserID == userID) = true
    · rw [if_pos hc, ih,
        @List.filter_cons_of_pos CommentRec (fun c => c.UserID == userID) c rest hc]
      cases hfr : (rest.filter (fun c => c.UserID == userID)).getLast? with
      | none => rw [getLast?_cons_none c hfr]
      | some x => rw [getLast?_cons_some c x hfr]
    · rw [if_neg hc, ih,
        @List.filter_cons_of_neg CommentRec (fun c => c.UserID == userID) c rest hc]

/-- Claim C10: on a successfully fetched comment list, the operation
deletes the chronologically last comment authored by the token's user (the
list is in chronological order), and performs no deletion - returning
success - when no comment has that author. -/
theorem deleteLastPullRequestComment_spec (comments : List CommentRec)
    (userID : Int) (hpos : ∀ c ∈ comments, 0 < c.ID) :
    deleteLastPullRequestComment comments userID =
      (comments.filter (fun c => c.UserID == userID)).getLast?.map
        (fun c => c.ID) := by
  unfold deleteLastPullRequestComment
  rw [deleteLast_foldl]
  cases hfr : (comments.filter (fun c => c.UserID == userID)).getLast? with
  | none => simp
  | some x =>
    have hx : x ∈ comments :=
      List.mem_of_mem_filter (List.mem_of_mem_getLast? hfr)
    simp [hpos x hx]

/-- Comment fixtures for the deletion witness: two comments by user 5
around one by user 6. -/
def wOwn1 : CommentRec :=
  { ID := 31, Body := "a", AuthorAssociation := "", CreatedAt := ⟨1, "t"⟩,
    UserID := 5 }

/-- Comment by another author. -/
def wOther : CommentRec :=
  { ID := 32, Body := "b", AuthorAssociation := "", CreatedAt := ⟨2, "t"⟩,
    UserID := 6 }

/-- The chronologically last comment by user 5. -/
def wOwn2 : CommentRec :=
  { ID := 33, Body := "c", AuthorAssociation := "", CreatedAt := ⟨3, "t"⟩,
    UserID := 5 }

/-- Witness for claim C10: the last own comment (ID 33) is deleted even
though a later foreign comment follows it in neither scenario; with no own
comment in the list, nothing is deleted. -/
theorem deleteLastPullRequestComment_witness :
    deleteLastPullRequestComment [wOwn1, wOther, wOwn2] 5 = some 33 ∧
      deleteLastPullRequestComment [wOther] 5 = none := by
  constructor
  · rw [deleteLastPullRequestComment_spec [wOwn1, wOther, wOwn2] 5 (by decide)]
    rfl
  · rw [deleteLastPullRequestComment_spec [wOther] 5 (by decide)]
    rfl

/-! ### JSON values and the version round trip (claims C5-C7 support) -/

/-- The JSON value shapes `encoding/json` produces for the records at hand:
strings, arrays and keyed objects. -/
inductive Json where
  | str : String → Json
  | arr : List Json → Json
  | obj : List (String × Json) → Json
deriving Repr

/-- `json.Marshal` of a `Version`, the bytes `In` writes to version.json
(in.go line 727): an object carrying the four json-tagged string fields in
struct order, with no omitempty. -/
def marshalVersion (v : Version) : Json :=
  .obj [("created_at", .str v.CreatedAt), ("pr_id", .str v.PrID),
    ("review_id", .str v.ReviewID), ("comment_id", .str v.CommentID)]

/-- Field extraction of `json.Unmarshal` into a string struct field: the
last occurrence of the key wins, a missing key leaves the field's zero
value (the empty string), a non-string value is a type error. -/
def getStrField (fields : List (String × Json)) (k : String) : Option String :=
  match (fields.filter (fun f => f.1 == k)).getLast? with
  | none => some ""
  | some (_, .str s) => some s
  | some _ => none

/-- `json.Unmarshal` of version.json into a `Version`, as `Out` reads it
back (out.go lines 137-144). -/
def unmarshalVersion (j : Json) : Option Version :=
  match j with
  | .obj fields =>
    match getStrField fields "created_at", getStrField fields "pr_id",
        getStrField fields "review_id", getStrField fields "comment_id" with
    | some ca, some pr, some rv, some cm =>
      some { CreatedAt := ca, PrID := pr, ReviewID := rv, CommentID := cm }
    | _, _, _, _ => none
  | _ => none

/-- `json.Marshal` of a `Metadata` slice (in.go line 736): an array of
name/value objects. -/
def marshalMetadata (md : Metadata) : Json :=
  .arr (md.map (fun f => .obj [("name", .str f.Name), ("value", .str f.Value)]))

/-- Claim C6: a Version serialized to version.json by the materialization
step and deserialized by the reconciliation step is field-for-field
identical to the original, for every Version value. -/
theorem version_json_roundtrip (v : Version) :
    unmarshalVersion (marshalVersion v) = some v := rfl

/-! ### Regex capture extraction (in.go getParams, claim C7) -/

/-- The observable behavior of a compiled Go regexp, as consulted by
`getParams`: `SubexpNames` lists one name per capture group with the whole
match at index 0 (the empty string for unnamed groups), and
`FindStringSubmatch` returns the matched text followed by all group
captures, or Go's nil slice - the empty list - when the pattern does not
match.  The engine itself is external; the model is its oracle. -/
structure RegexModel where
  subexpNames : String → List String
  findStringSubmatch : String → String → List String

/-- Go map assignment `m[k] = v`: overwrite the entry or append a new
one. -/
def mapInsert (k v : String) : List (String × String) → List (String × String)
  | [] => [(k, v)]
  | (k', v') :: rest =>
    if k' == k then (k, v) :: rest else (k', v') :: mapInsert k v rest

/-- Go map lookup `m[k]`. -/
def mapLookup (k : String) : List (String × String) → Option String
  | [] => none
  | (k', v') :: rest => if k' == k then some v' else mapLookup k rest

/-- `getParams` (in.go lines 837-849): match the pattern once against the
comment and record, for every capture group with index > 0, the group's
capture under the group's name (`paramsMap[name] = match[i]`).  The Go map
is an association list with overwrite semantics; `SubexpNames()` is walked
left to right, exactly as Go's indexed range.  (For a real regexp a
successful match has exactly one entry per name, so the guard
`i <= len(match)` never selects the out-of-range index at which Go would
panic; the model reads the empty string there.) -/
def getParams (rm : RegexModel) (regEx comment : String) :
    List (String × String) :=
  let mtch := rm.findStringSubmatch regEx comment
  ((rm.subexpNames regEx).enum).foldl
    (fun pm p =>
      if 0 < p.1 ∧ p.1 ≤ mtch.length then mapInsert p.2 (mtch.getD p.1 "") pm
      else pm)
    []

/-- The `map_comment_meta` enrichment of `In` (in.go lines 674-682 and
709-717): for each configured comments pattern, append every captured
parameter to the metadata via `Metadata.Add`.  Go iterates the map in
unspecified order; the model uses the map's insertion order. -/
def enrichFromCommentBody (rm : RegexModel) (patterns : List String)
    (body : String) (meta : Metadata) : Metadata :=
  patterns.foldl
    (fun md pat =>
      (getParams rm pat body).foldl (fun md' kv => md' ++ [⟨kv.1, kv.2⟩]) md)
    meta

/-- Lookup after a Go-map insert: the inserted key reads the new value,
every other key is untouched. -/
lemma mapLookup_mapInsert (k k' v : String) :
    ∀ m : List (String × String),
      mapLookup k (mapInsert k' v m) =
        if k' == k then some v else mapLookup k m := by
  intro m
  induction m with
  | nil => rfl
  | cons p rest ih =>
    obtain ⟨k1, v1⟩ := p
    show mapLookup k
        (if (k1 == k') = true then (k', v) :: rest
          else (k1, v1) :: mapInsert k' v rest) = _
    by_cases h1 : (k1 == k') = true
    · rw [if_pos h1]
      show (if (k' == k) = true then some v else mapLookup k rest) = _
      by_cases h2 : (k' == k) = true
      · rw [if_pos h2, if_pos h2]
      · rw [if_neg h2, if_neg h2]
        show mapLookup k rest =
          if (k1 == k) = true then some v1 else mapLookup k rest
        have hk1 : (k1 == k) = false := by
          have e1 : k1 = k' := beq_iff_eq.mp h1
          have e2 : ¬ k' = k := by simpa using h2
          exact beq_eq_false_iff_ne.mpr (e1 ▸ e2)
        rw [hk1]
        simp
    · rw [if_neg h1]
      show (if (k1 == k) = true then some v1
          else mapLookup k (mapInsert k' v rest)) = _
      by_cases h3 : (k1 == k) = true
      · rw [if_pos h3]
        have h2 : (k' == k) = false := by
          have e3 : k1 = k := beq_iff_eq.mp h3
          have e1 : ¬ k1 = k' := by simpa using h1
          exact beq_eq_false_iff_ne.mpr (fun e => e1 (e3 ▸ e.symm))
        rw [h2]
        show some v1 = mapLookup k ((k1, v1) :: rest)
        show some v1 = if (k1 == k) = true then some v1 else mapLookup k rest
        rw [if_pos h3]
      · rw [if_neg h3, ih]
        by_cases h2 : (k' == k) = true
        · rw [if_pos h2, if_pos h2]
        · rw [if_neg h2, if_neg h2]
          show mapLookup k rest =
            if (k1 == k) = true then some v1 else mapLookup k rest
          rw [if_neg h3]

/-- Lookup after the indexed insert fold of `getParams`: the last inserted
entry for the key wins; keys never inserted fall through to the initial
map. -/
lemma mapLookup_foldl_insert (k : String) (f : Nat × String → String)
    (q : Nat × String → Prop) [DecidablePred q] :
    ∀ (L : List (Nat × String)) (init : List (String × String)),
      mapLookup k
          (L.foldl (fun pm e => if q e then mapInsert e.2 (f e) pm else pm) init) =
        match (L.filter (fun e => decide (q e) && (e.2 == k))).getLast? with
        | some e => some (f e)
        | none => mapLookup k init := by
  intro L
  induction L with
  | nil => intro init; rfl
  | cons e L ih =>
    intro init
    rw [List.foldl_cons]
    by_cases hq : q e
    · rw [if_pos hq]
      rw [ih]
      by_cases hk : (e.2 == k) = true
      · rw [@List.filter_cons_of_pos _
          (fun e => decide (q e) && (e.2 == k)) e L (by simp [hq, hk])]
        cases hfr : (L.filter (fun e => decide (q e) && (e.2 == k))).getLast? with
        | none =>
          rw [getLast?_cons_none e hfr]
          show mapLookup k (mapInsert e.2 (f e) init) = some (f e)
          rw [mapLookup_mapInsert, if_pos hk]
        | some x => rw [getLast?_cons_some e x hfr]
      · rw [@List.filter_cons_of_neg _
          (fun e => decide (q e) && (e.2 == k)) e L (by simp [hk])]
        cases hfr : (L.filter (fun e => decide (q e) && (e.2 == k))).getLast? with
        | none =>
          show mapLookup k (mapInsert e.2 (f e) init) = mapLookup k init
          rw [mapLookup_mapInsert, if_neg hk]
        | some x => rfl
    · rw [if_neg hq, ih]
      rw [@List.filter_cons_of_neg _
        (fun e => decide (q e) && (e.2 == k)) e L (by simp [hq])]

/-- A fold that never inserts returns the initial map. -/
lemma foldl_no_insert (f : Nat × String → String)
    (q : Nat × String → Prop) [DecidablePred q] (hq : ∀ e, ¬ q e) :
    ∀ (L : List (Nat × String)) (init : List (String × String)),
      L.foldl (fun pm e => if q e then mapInsert e.2 (f e) pm else pm) init =
        init := by
  intro L
  induction L with
  | nil => intro init; rfl
  | cons e L ih =>
    intro init
    rw [List.foldl_cons, if_neg (hq e)]
    exact ih init

/-- Claim C7 counterexample: the pattern `"(\\w+)"` has one unnamed capture
group and no named groups, yet matching body "alice" makes the enrichment
contribute a metadata field (keyed by the empty group name): the code keys
entries by `SubexpNames()[i]` whether or not the group is named, so "a
pattern without named groups contributes nothing" fails on the code. -/
theorem getParams_unnamed_group_cex :
    enrichFromCommentBody
        { subexpNames := fun p => if p == "(\\w+)" then ["", ""] else [""]
          findStringSubmatch := fun p b =>
            if p == "(\\w+)" && b == "alice" then ["alice", "alice"] else [] }
        ["(\\w+)"] "alice" [] =
      [⟨"", "alice"⟩] := rfl

/-- Claim C7 (amended): for every pattern and body, the captured-parameter
map holds one entry per capture group with index > 0 - named groups under
their name, unnamed groups under the empty name, a later group with the
same name overwriting an earlier one - carrying the group's captured
substring (the empty string when the group did not participate); a pattern
that does not match the body contributes no entries and raises no error.
Formally: looking up any key returns the capture of the last group with
that name, and a non-matching pattern yields the empty map. -/
theorem getParams_lookup_spec (rm : RegexModel) (p b : String) :
    (rm.findStringSubmatch p b = [] → getParams rm p b = []) ∧
      ∀ k, mapLookup k (getParams rm p b) =
        (((rm.subexpNames p).enum.filter
            (fun e => decide (0 < e.1 ∧ e.1 ≤ (rm.findStringSubmatch p b).length) &&
              (e.2 == k))).getLast?).map
          (fun e => (rm.findStringSubmatch p b).getD e.1 "") := by
  constructor
  · intro h
    simp only [getParams, h]
    refine foldl_no_insert _ _ ?_ _ _
    intro e he
    simp at he
    omega
  · intro k
    simp only [getParams]
    rw [mapLookup_foldl_insert k
      (fun e => (rm.findStringSubmatch p b).getD e.1 "")
      (fun e => 0 < e.1 ∧ e.1 ≤ (rm.findStringSubmatch p b).length)]
    cases hfr : (((rm.subexpNames p).enum).filter
        (fun e => decide (0 < e.1 ∧ e.1 ≤ (rm.findStringSubmatch p b).length) &&
          (e.2 == k))).getLast? with
    | none => rfl
    | some x => rfl

/-- Oracle fixture for the spec's example pattern with one named group. -/
def wRegexPing : RegexModel :=
  { subexpNames := fun p =>
      if p == "^ping (?P<target>\\w+)$" then ["", "target"] else [""]
    findStringSubmatch := fun p b =>
      if p == "^ping (?P<target>\\w+)$" && b == "ping alice" then
        ["ping alice", "alice"]
      else [] }

/-- Witness for the amended claim C7: the spec's example pattern against
"ping alice" yields target="alice", and against "pong" yields no fields. -/
theorem getParams_lookup_spec_witness :
    mapLookup "target"
        (getParams wRegexPing "^ping (?P<target>\\w+)$" "ping alice") =
      some "alice" ∧
    getParams wRegexPing "^ping (?P<target>\\w+)$" "pong" = [] := by
  constructor
  · rw [(getParams_lookup_spec wRegexPing "^ping (?P<target>\\w+)$"
      "ping alice").2 "target"]
    rfl
  · exact (getParams_lookup_spec wRegexPing "^ping (?P<target>\\w+)$" "pong").1 rfl

/-! ### The materialization step (actions/in.go, claim C5) -/

/-- The digit-run scan of Go's `strconv.ParseUint` in base 10: consumes
the entire remaining input or fails on the first non-digit or on empty
input. -/
def goParseDigits : List Char → Nat → Option Nat
  | [], acc => some acc
  | c :: rest, acc =>
    if '0' ≤ c ∧ c ≤ '9' then goParseDigits rest (acc * 10 + (c.toNat - 48))
    else none

/-- `strconv.ParseInt(s, 10, 64)` as a partial function: an optional sign
followed by a non-empty digit run, rejecting anything else. -/
def goParseInt64 (s : String) : Option Int :=
  match s.toList with
  | [] => none
  | '-' :: ds =>
    if ds = [] then none else (goParseDigits ds 0).map (fun n => -(n : Int))
  | '+' :: ds =>
    if ds = [] then none else (goParseDigits ds 0).map (fun n => (n : Int))
  | ds => (goParseDigits ds 0).map (fun n => (n : Int))

/-- `strconv.ParseInt(s, 10, 64)` with the error discarded, as in.go lines
611-613 do (`prId, _ := ...`): syntax errors (including the empty string of
an unset identifier) yield 0; out-of-range values saturate at the int64
bounds, which is what Go returns alongside the discarded range error. -/
def parseInt64Discard (s : String) : Int :=
  match goParseInt64 s with
  | none => 0
  | some n =>
    if n > 9223372036854775807 then 9223372036854775807
    else if n < -9223372036854775808 then -9223372036854775808
    else n

/-- InParams of the in step (in.go lines 531-539). -/
structure InParams where
  CommentFile     : String := ""
  SourcePath      : String := ""
  GitDepth        : Int := 0
  Submodules      : Bool := false
  SkipDownload    : Bool := false
  FetchTags       : Bool := false
  IntegrationTool : String := ""

/-- InRequest from the in stdin (in.go lines 542-546). -/
structure InRequest where
  Source  : Source
  Version : Version
  Params  : InParams

/-- InResponse written to stdout (in.go lines 549-552). -/
structure InResponse where
  Version  : Version
  Metadata : Metadata

/-- InMetadata (in.go lines 554-570). -/
structure InMetadata where
  PRID              : Int
  PRHeadRef         : String
  PRHeadSHA         : String
  PRBaseRef         : String
  PRBaseSHA         : String
  CommentID         : Int := 0
  Body              : String := ""
  CreatedAt         : GoTime := ⟨0, ""⟩
  UpdatedAt         : GoTime := ⟨0, ""⟩
  AuthorAssociation : String := ""
  HTMLURL           : String := ""
  UserLogin         : String := ""
  UserID            : Int := 0
  UserAvatarURL     : String := ""
  UserHTMLURL       : String := ""

/-- `serializeMetadata` (source.go lines 112-125): the reflection loop
walks the struct fields in declaration order, naming each entry after its
json tag and stringifying the value with `%v` (integers in decimal, times
through their rendering). -/
def serializeMetadata (meta : InMetadata) : Metadata :=
  [⟨"pr_id", goFormatInt meta.PRID⟩,
    ⟨"pr_head_ref", meta.PRHeadRef⟩,
    ⟨"pr_head_sha", meta.PRHeadSHA⟩,
    ⟨"pr_base_ref", meta.PRBaseRef⟩,
    ⟨"pr_base_sha", meta.PRBaseSHA⟩,
    ⟨"comment_id", goFormatInt meta.CommentID⟩,
    ⟨"body", meta.Body⟩,
    ⟨"created_at", meta.CreatedAt.render⟩,
    ⟨"updated_at", meta.UpdatedAt.render⟩,
    ⟨"author_association", meta.AuthorAssociation⟩,
    ⟨"html_url", meta.HTMLURL⟩,
    ⟨"user_login", meta.UserLogin⟩,
    ⟨"user_id", goFormatInt meta.UserID⟩,
    ⟨"user_avatar_url", meta.UserAvatarURL⟩,
    ⟨"user_html_url", meta.UserHTMLURL⟩]

/-- Results of the git collaborator calls made by the download phase of
`In` (construction, Init, Pull, Fetch and the three integration
strategies), each an external effect that either succeeds or fails with a
message. -/
structure GitOps where
  newRes      : Except String Unit
  initRes     : Except String Unit
  pullRes     : Except String Unit
  fetchRes    : Except String Unit
  rebaseRes   : Except String Unit
  mergeRes    : Except String Unit
  checkoutRes : Except String Unit

/-- The API collaborator calls `In` makes, with the git collaborator
attached: each models one successful or failing remote interaction. -/
structure InClient where
  getPullRequest        : Int → Except String Pull
  getPullRequestComment : Int → Except String CommentRec
  getPullRequestReview  : Int → Int → Except String ReviewRec
  git                   : GitOps

/-- Everything `In` leaves behind on success: the stdout response, the
comment file, version.json, metadata.json, and one file per metadata
field. -/
structure InOutcome where
  response           : InResponse
  commentFileName    : String
  commentFileContent : String
  versionJson        : Json
  metadataJson       : Json
  metadataFiles      : List (String × String)

/-- The serialize-and-enrich step shared by both branches of `In` (in.go
lines 672-682 and 707-717). -/
def inSerialize (rm : RegexModel) (req : InRequest) (metadata : InMetadata)
    (body : String) : Metadata :=
  let serialized := serializeMetadata metadata
  if req.Source.MapCommentMeta then
    enrichFromCommentBody rm req.Source.Comments body serialized
  else serialized

/-- The tail of `In` after the version is resolved (in.go lines 727-835):
marshal and persist version and metadata (the filesystem writes are modelled
as succeeding; the marshals of these shapes cannot fail), then, unless
`skip_download` is set, drive the git collaborator: client construction,
Init on the base ref, Pull, Fetch, and exactly one integration strategy
selected by `integration_tool` (default rebase); an unknown strategy is a
configuration error. -/
def inFinish (client : InClient) (req : InRequest) (commentFile body : String)
    (serialized : Metadata) : Except String InOutcome :=
  let outcome : InOutcome :=
    { response := { Version := req.Version, Metadata := serialized }
      commentFileName := commentFile
      commentFileContent := body
      versionJson := marshalVersion req.Version
      metadataJson := marshalMetadata serialized
      metadataFiles := serialized.map (fun d => (d.Name, d.Value)) }
  if req.Params.SkipDownload then .ok outcome
  else
    match client.git.newRes with
    | .error e => .error ("failed to initialize git client: " ++ e)
    | .ok _ =>
      match client.git.initRes with
      | .error e => .error ("failed to initialize git repo: " ++ e)
      | .ok _ =>
        match client.git.pullRes with
        | .error e => .error e
        | .ok _ =>
          match client.git.fetchRes with
          | .error e => .error e
          | .ok _ =>
            if req.Params.IntegrationTool = "rebase" ∨
                req.Params.IntegrationTool = "" then
              match client.git.rebaseRes with
              | .error e => .error e
              | .ok _ => .ok outcome
            else if req.Params.IntegrationTool = "merge" then
              match client.git.mergeRes with
              | .error e => .error e
              | .ok _ => .ok outcome
            else if req.Params.IntegrationTool = "checkout" then
              match client.git.checkoutRes with
              | .error e => .error e
              | .ok _ => .ok outcome
            else
              .error ("invalid integration tool specified: " ++
                req.Params.IntegrationTool)

/-- `In` (in.go lines 600-835): parse the three identifiers with errors
discarded, resolve the pull request, prepare the base metadata and the
comment file name, then materialize the comment if a comment id is set,
else the review if a review id (and pr id) is set, else fail with
"cannot extrapolate version"; finally persist and optionally download. -/
def In (client : InClient) (rm : RegexModel) (req : InRequest) :
    Except String InOutcome :=
  let prId := parseInt64Discard req.Version.PrID
  let reviewId := parseInt64Discard req.Version.ReviewID
  let commentId := parseInt64Discard req.Version.CommentID
  match client.getPullRequest prId with
  | .error e => .error e
  | .ok pull =>
    let metadata : InMetadata :=
      { PRID := prId, PRHeadRef := pull.HeadRef, PRHeadSHA := pull.HeadSHA,
        PRBaseRef := pull.BaseRef, PRBaseSHA := pull.BaseSHA }
    let commentFile :=
      if req.Params.CommentFile ≠ "" then req.Params.CommentFile
      else "comment.txt"
    if commentId > 0 then
      match client.getPullRequestComment commentId with
      | .error e => .error ("could not retrieve comment: " ++ e)
      | .ok comment =>
        inFinish client req commentFile comment.Body
          (inSerialize rm req
            { metadata with
              CommentID := comment.ID, Body := comment.Body,
              CreatedAt := comment.CreatedAt, UpdatedAt := comment.UpdatedAt,
              AuthorAssociation := comment.AuthorAssociation,
              HTMLURL := comment.HTMLURL, UserLogin := comment.UserLogin,
              UserID := comment.UserID,
              UserAvatarURL := comment.UserAvatarURL,
              UserHTMLURL := comment.UserHTMLURL }
            comment.Body)
    else if reviewId > 0 ∧ prId > 0 then
      match client.getPullRequestReview prId reviewId with
      | .error e => .error ("could not retrieve review: " ++ e)
      | .ok review =>
        inFinish client req commentFile review.Body
          (inSerialize rm req
            { metadata with
              CommentID := review.ID, Body := review.Body,
              CreatedAt := review.SubmittedAt,
              AuthorAssociation := review.AuthorAssociation,
              HTMLURL := review.HTMLURL, UserLogin := review.UserLogin,
              UserID := review.UserID,
              UserAvatarURL := review.UserAvatarURL,
              UserHTMLURL := review.UserHTMLURL }
            review.Body)
    else
      .error "cannot extrapolate version"

/-- Claim C5: a materialization request whose version has neither a comment
identifier nor a review identifier set fails with "cannot extrapolate
version"; and when a review identifier is set (the PR resolved, the
version well-formed with no comment id), the operation fetches that exact
review and materializes it - review body in the comment file - rather than
failing. -/
theorem in_version_resolution (client : InClient) (rm : RegexModel)
    (req : InRequest) (pull : Pull)
    (hp : client.getPullRequest (parseInt64Discard req.Version.PrID) = .ok pull) :
    (req.Version.CommentID = "" → req.Version.ReviewID = "" →
      In client rm req = .error "cannot extrapolate version") ∧
    (∀ review : ReviewRec,
      req.Version.CommentID = "" →
      0 < parseInt64Discard req.Version.ReviewID →
      0 < parseInt64Discard req.Version.PrID →
      client.getPullRequestReview (parseInt64Discard req.Version.PrID)
          (parseInt64Discard req.Version.ReviewID) = .ok review →
      req.Params.SkipDownload = true →
      ∃ outcome : InOutcome,
        In client rm req = .ok outcome ∧
          outcome.commentFileContent = review.Body ∧
          outcome.response.Version = req.Version) := by
  constructor
  · intro hc hr
    have hc0 : parseInt64Discard req.Version.CommentID = 0 := by rw [hc]; rfl
    have hr0 : parseInt64Discard req.Version.ReviewID = 0 := by rw [hr]; rfl
    simp only [In]
    rw [hp]
    simp only [hc0, hr0]
    norm_num
  · intro review hc hrpos hppos hrev hskip
    have hc0 : parseInt64Discard req.Version.CommentID = 0 := by rw [hc]; rfl
    simp only [In]
    rw [hp]
    simp only [hc0]
    rw [if_neg (by norm_num), if_pos ⟨hrpos, hppos⟩, hrev]
    simp only [inFinish, hskip, if_pos]
    exact ⟨_, rfl, rfl, rfl⟩

/-- Pull request fixture for the In witness. -/
def wInPull : Pull :=
  { Number := 7, State := "open", Labels := [], Mergeable := true,
    Draft := false, HeadRef := "feat", HeadSHA := "h", BaseRef := "main",
    BaseSHA := "b" }

/-- Review fixture for the In witness. -/
def wInReview : ReviewRec :=
  { ID := 9, Body := "lgtm", State := "APPROVED", SubmittedAt := ⟨50, "t50"⟩ }

/-- Client fixture serving PR 7 and review 9 of PR 7. -/
def wInClient : InClient :=
  { getPullRequest := fun n => if n == 7 then .ok wInPull else .error "no pull"
    getPullRequestComment := fun _ => .error "no comment"
    getPullRequestReview := fun n r =>
      if n == 7 && r == 9 then .ok wInReview else .error "no review"
    git :=
      { newRes := .ok ()
        initRes := .ok ()
        pullRes := .ok ()
        fetchRes := .ok ()
        rebaseRes := .ok ()
        mergeRes := .ok ()
        checkoutRes := .ok () } }

/-- In request fixture with neither identifier set. -/
def wInReqNeither : InRequest :=
  { Source := {}
    Version := { CreatedAt := "50", PrID := "7", ReviewID := "", CommentID := "" }
    Params := { SkipDownload := true } }

/-- In request fixture with only the review identifier set. -/
def wInReqReview : InRequest :=
  { Source := {}
    Version := { CreatedAt := "50", PrID := "7", ReviewID := "9", CommentID := "" }
    Params := { SkipDownload := true } }

/-- Witness for claim C5: with neither identifier the concrete run fails
with "cannot extrapolate version"; with the review identifier set it
materializes review 9's body. -/
theorem in_version_resolution_witness :
    In wInClient wRegexPing wInReqNeither = .error "cannot extrapolate version" ∧
      ∃ outcome : InOutcome,
        In wInClient wRegexPing wInReqReview = .ok outcome ∧
          outcome.commentFileContent = wInReview.Body ∧
          outcome.response.Version = wInReqReview.Version := by
  constructor
  · exact (in_version_resolution wInClient wRegexPing wInReqNeither wInPull
      rfl).1 rfl rfl
  · exact (in_version_resolution wInClient wRegexPing wInReqReview wInPull
      rfl).2 wInReview rfl (by decide) (by decide) rfl rfl

end PRComment
